import Mathlib

/-!
Verification of the storage core of a REST key-value cache server
(`src/main.rs`): the `Cache` trait, its in-memory backend `MemCache`
(a `HashMap<String, String>`) and its on-disk backend `DiskCache`
(one file per entry in a directory, named by a hash of the key).

The embedding models:
- maps with unique string keys (Rust `HashMap`, and the directory of the
  disk backend) as association lists `List (String × String)`;
- `serde_json::Map` (the default, `BTreeMap`-backed, hence key-sorted
  representation of a JSON object) as insertion into a key-sorted
  association list;
- `serde_json` serialization of the `DiskCacheEntry { key, value }` record
  concretely, including JSON string escaping, with a matching parser;
- the filesystem operations used by `DiskCache` as a state monad over the
  directory contents that can fail (modelling `unwrap` panics) and that
  records a trace of filesystem events (creates, writes, syncs, renames),
  which lets us state the crash-safety write protocol of `DiskCache::add`.
-/

namespace RestServer

/-- Lookup in an association list, first match wins.  Models lookup in a
map with unique keys (`HashMap::get`, or resolving a file name in a
directory). -/
def alook : List (String × String) → String → Option String
  | [], _ => none
  | (k, v) :: rest, q => if q = k then some v else alook rest q

/-- The keys (first components) of an association list. -/
def keysOf (l : List (String × String)) : List String := l.map Prod.fst

/-- Insert-or-replace: replaces the payload at the first occurrence of the
key, otherwise appends the new pair at the end.  Models `HashMap::insert`
and creating/overwriting a file in a directory. -/
def setEntry (k v : String) : List (String × String) → List (String × String)
  | [] => [(k, v)]
  | (k', v') :: rest => if k' = k then (k, v) :: rest else (k', v') :: setEntry k v rest

/-- Remove the first occurrence of the key.  Models `HashMap::remove` and
unlinking a file from a directory. -/
def delEntry (k : String) : List (String × String) → List (String × String)
  | [] => []
  | (k', v') :: rest => if k' = k then rest else (k', v') :: delEntry k rest

/-- Insertion into a key-sorted association list, replacing the payload on
an equal key.  Models `BTreeMap::insert` on `String` keys (`serde_json`'s
default `Map` representation); Rust's `Ord` on `String` is lexicographic
byte order of the UTF-8 encoding, which coincides with Lean's
lexicographic code-point order on `String`. -/
def mapInsert (k v : String) : List (String × String) → List (String × String)
  | [] => [(k, v)]
  | (k', v') :: rest =>
    if k = k' then (k, v) :: rest
    else if k < k' then (k, v) :: (k', v') :: rest
    else (k', v') :: mapInsert k v rest

/-- `serde_json::Map::from_iter`: left-to-right insertion into an (initially
empty) `BTreeMap`-backed map; on duplicate keys the later pair wins. -/
def mapFromList (l : List (String × String)) : List (String × String) :=
  l.foldl (fun acc p => mapInsert p.1 p.2 acc) []

/-- Strict key-sortedness of an association list: the representation
invariant of a `BTreeMap` rendered as a list of pairs. -/
def EntriesSorted (l : List (String × String)) : Prop :=
  l.Pairwise (fun p q => p.1 < q.1)

/-- Auxiliary: keep the first defined option. -/
def ofirst (x y : Option String) : Option String :=
  match x with
  | some v => some v
  | none => y

/-- The lower-case hex digit used by `serde_json` when emitting `\u00XX`
escapes. -/
def hexDigit (n : Nat) : Char :=
  if n < 10 then Char.ofNat (48 + n) else Char.ofNat (87 + n)

/-- `serde_json`'s escaping of a single character inside a JSON string
literal: `"` and `\` are backslash-escaped, the control characters with
short escapes use them, the remaining control characters use `\u00XX`,
and everything else is emitted verbatim. -/
def escapeChar (c : Char) : List Char :=
  if c = '"' then ['\\', '"']
  else if c = '\\' then ['\\', '\\']
  else if c = '\x08' then ['\\', 'b']
  else if c = '\x09' then ['\\', 't']
  else if c = '\x0a' then ['\\', 'n']
  else if c = '\x0c' then ['\\', 'f']
  else if c = '\x0d' then ['\\', 'r']
  else if c.toNat < 32 then
    ['\\', 'u', '0', '0', hexDigit (c.toNat / 16), hexDigit (c.toNat % 16)]
  else [c]

def escapeList : List Char → List Char
  | [] => []
  | c :: rest => escapeChar c ++ escapeList rest

/-- The record stored in each entry file of the disk cache
(`struct DiskCacheEntry { key: String, value: String }`). -/
structure DiskCacheEntry where
  key : String
  value : String
deriving DecidableEq

/-- The characters of `{"key":"` (the opening of the serialized record). -/
def jsonHeader : List Char := "\x7b\"key\":\"".data

/-- The characters of `,"value":"` (between the two string fields,
after the closing quote of the key). -/
def jsonMid : List Char := ",\"value\":\"".data

/-- `DiskCache::serialize`: the compact JSON text
`{"key":"<escaped key>","value":"<escaped value>"}`. -/
def serializeEntry (e : DiskCacheEntry) : String :=
  String.mk (jsonHeader ++ escapeList e.key.data ++
    '"' :: jsonMid ++ escapeList e.value.data ++ '"' :: ['\x7d'])

/-- Value of a hex digit character (both cases accepted, as in JSON). -/
def hexVal (c : Char) : Option Nat :=
  if '0' ≤ c ∧ c ≤ '9' then some (c.toNat - 48)
  else if 'a' ≤ c ∧ c ≤ 'f' then some (c.toNat - 87)
  else if 'A' ≤ c ∧ c ≤ 'F' then some (c.toNat - 55)
  else none

/-- Parse the body of a JSON string literal (the opening quote already
consumed), returning its unescaped characters and the input remaining
after the closing quote. -/
def parseStrBody : List Char → Option (List Char × List Char)
  | [] => none
  | c :: rest =>
    if c = '"' then some ([], rest)
    else if c = '\\' then
      match rest with
      | [] => none
      | e :: rest2 =>
        if e = '"' then (parseStrBody rest2).map (fun p => ('"' :: p.1, p.2))
        else if e = '\\' then (parseStrBody rest2).map (fun p => ('\\' :: p.1, p.2))
        else if e = '/' then (parseStrBody rest2).map (fun p => ('/' :: p.1, p.2))
        else if e = 'b' then (parseStrBody rest2).map (fun p => ('\x08' :: p.1, p.2))
        else if e = 't' then (parseStrBody rest2).map (fun p => ('\x09' :: p.1, p.2))
        else if e = 'n' then (parseStrBody rest2).map (fun p => ('\x0a' :: p.1, p.2))
        else if e = 'f' then (parseStrBody rest2).map (fun p => ('\x0c' :: p.1, p.2))
        else if e = 'r' then (parseStrBody rest2).map (fun p => ('\x0d' :: p.1, p.2))
        else if e = 'u' then
          match rest2 with
          | a :: b :: c3 :: d :: rest3 =>
            match hexVal a, hexVal b, hexVal c3, hexVal d with
            | some ha, some hb, some hc, some hd =>
              (parseStrBody rest3).map
                (fun p => (Char.ofNat (((ha * 16 + hb) * 16 + hc) * 16 + hd) :: p.1, p.2))
            | _, _, _, _ => none
          | _ => none
        else none
    else (parseStrBody rest).map (fun p => (c :: p.1, p.2))

/-- Expect a literal sequence of characters at the head of the input and
return what follows it. -/
def stripLit : List Char → List Char → Option (List Char)
  | [], cs => some cs
  | _ :: _, [] => none
  | t :: ts, c :: cs => if c = t then stripLit ts cs else none

/-- `DiskCache::deserialize` (`serde_json::from_slice::<DiskCacheEntry>`),
specialized to the compact field order `serde_json::to_string` emits;
`none` models the panic on malformed input. -/
def parseEntryChars (cs : List Char) : Option DiskCacheEntry :=
  match stripLit jsonHeader cs with
  | none => none
  | some cs1 =>
    match parseStrBody cs1 with
    | none => none
    | some (kcs, cs2) =>
      match stripLit jsonMid cs2 with
      | none => none
      | some cs3 =>
        match parseStrBody cs3 with
        | none => none
        | some (vcs, cs4) =>
          if cs4 = ['\x7d'] then some ⟨String.mk kcs, String.mk vcs⟩ else none

def deserializeEntry (s : String) : Option DiskCacheEntry :=
  parseEntryChars s.data

/-- A directory: file names mapped to file contents, as an association
list with unique names; the list order models `read_dir` enumeration
order. -/
abbrev Dir : Type := List (String × String)

/-- The `MemCache` state: the `HashMap<String, String>` as an association
list with unique keys; the list order models `HashMap` iteration order. -/
abbrev MemState : Type := List (String × String)

/-- Filesystem events performed by `DiskCache`, recorded as a trace. -/
inductive FsEvent
  | create (name : String)
  | write (name contents : String)
  | syncFile (name : String)
  | rename (src dst : String)
  | syncDir
  | remove (name : String)
deriving DecidableEq

/-- The filesystem monad of the disk backend: a computation over the
directory contents that may panic (`none`, modelling `unwrap` on an
unexpected I/O error) and records a trace of the filesystem events it
performs. -/
def FsM (α : Type) : Type := Dir → Option (α × Dir × List FsEvent)

instance : Monad FsM where
  pure a := fun d => some (a, d, [])
  bind x f := fun d =>
    match x d with
    | none => none
    | some (a, d', tr) =>
      match f a d' with
      | none => none
      | some (b, d'', tr') => some (b, d'', tr ++ tr')

/-- `File::create`: truncates an existing file or creates a new one. -/
def fsCreate (name : String) : FsM Unit :=
  fun d => some ((), setEntry name "" d, [.create name])

/-- `write_all`: after `File::create`, the file holds `contents`. -/
def fsWriteAll (name contents : String) : FsM Unit :=
  fun d => some ((), setEntry name contents d, [.write name contents])

/-- `file.sync_all()`: durability barrier on the file; no directory
change. -/
def fsSyncFile (name : String) : FsM Unit :=
  fun d => some ((), d, [.syncFile name])

/-- `tokio::fs::rename src dst`: atomic rename replacing `dst`; the
`unwrap` panics if `src` does not exist. -/
def fsRename (src dst : String) : FsM Unit :=
  fun d =>
    match alook d src with
    | none => none
    | some c => some ((), setEntry dst c (delEntry src d), [.rename src dst])

/-- `File::open(&cache_dir).sync_data()`: durability barrier on the
containing directory. -/
def fsSyncDir : FsM Unit :=
  fun d => some ((), d, [FsEvent.syncDir])

/-- `tokio::fs::remove_file`, distinguishing success from `NotFound`. -/
def fsRemoveFile (name : String) : FsM Bool :=
  fun d =>
    match alook d name with
    | none => some (false, d, [])
    | some _ => some (true, delEntry name d, [.remove name])

/-- `File::open` followed by `read_to_end`, distinguishing `NotFound`. -/
def fsReadFile (name : String) : FsM (Option String) :=
  fun d => some (alook d name, d, [])

/-- `tokio::fs::try_exists`. -/
def fsTryExists (name : String) : FsM Bool :=
  fun d => some ((alook d name).isSome, d, [])

/-- `tokio::fs::read_dir`: enumerate the directory. -/
def fsReadDir : FsM (List (String × String)) :=
  fun d => some (d, d, [])

/-- An `unwrap` panic. -/
def fsPanic {α : Type} : FsM α := fun _ => none

/-- Replay a filesystem event on a directory; used to state properties of
the intermediate states during `DiskCache::add`. -/
def applyEvent (d : Dir) : FsEvent → Dir
  | .create name => setEntry name "" d
  | .write name contents => setEntry name contents d
  | .syncFile _ => d
  | .rename src dst =>
    match alook d src with
    | none => d
    | some c => setEntry dst c (delEntry src d)
  | .syncDir => d
  | .remove name => delEntry name d

def applyEvents (d : Dir) (evs : List FsEvent) : Dir := evs.foldl applyEvent d

/-- `MemCache::add`: `HashMap::insert`. -/
def MemCache.add (k v : String) (m : MemState) : MemState := setEntry k v m

/-- `MemCache::delete`: `HashMap::remove(key).is_some()`. -/
def MemCache.delete (k : String) (m : MemState) : Bool × MemState :=
  ((alook m k).isSome, delEntry k m)

/-- `MemCache::modify`: replace the value of an occupied entry, report
`false` on a vacant one. -/
def MemCache.modify (k v : String) (m : MemState) : Bool × MemState :=
  match alook m k with
  | some _ => (true, setEntry k v m)
  | none => (false, m)

/-- `MemCache::get`: `HashMap::get(key).cloned()`. -/
def MemCache.get (k : String) (m : MemState) : Option String := alook m k

/-- `MemCache::list`: `serde_json::Map::from_iter` over the entries. -/
def MemCache.list (m : MemState) : List (String × String) := mapFromList m

/-- `DiskCache::add`: serialize the record, write it to the temporary
file `<hash>.new`, sync that file, atomically rename it onto the final
name `<hash>`, and sync the directory — in exactly this order. -/
def DiskCache.add (hash : String → String) (k v : String) : FsM Unit := do
  let filename := hash k
  let tmp := filename ++ ".new"
  let contents := serializeEntry ⟨k, v⟩
  fsCreate tmp
  fsWriteAll tmp contents
  fsSyncFile tmp
  fsRename tmp filename
  fsSyncDir

/-- `DiskCache::delete`: remove the file named `hash(key)`; on success
sync the directory and report `true`, on `NotFound` report `false`. -/
def DiskCache.delete (hash : String → String) (k : String) : FsM Bool := do
  let removed ← fsRemoveFile (hash k)
  if removed then
    fsSyncDir
    pure true
  else
    pure false

/-- `DiskCache::modify`: if the file `hash(key)` exists, perform `add`
and report `true`, otherwise report `false`. -/
def DiskCache.modify (hash : String → String) (k v : String) : FsM Bool := do
  let ex ← fsTryExists (hash k)
  if ex then
    DiskCache.add hash k v
    pure true
  else
    pure false

/-- `DiskCache::get`: open and read the file `hash(key)` (`NotFound` is
absence), deserialize it and return the record's value field. -/
def DiskCache.get (hash : String → String) (k : String) : FsM (Option String) := do
  let c? ← fsReadFile (hash k)
  match c? with
  | none => pure none
  | some c =>
    match deserializeEntry c with
    | none => fsPanic
    | some e => pure (some e.value)

/-- The pure scan of `DiskCache::list`: for each directory entry whose
name has length `blake3::OUT_LEN * 2 = 64`, read and deserialize the
file and collect `(record.key, record.value)`; `none` models the panic
on a file that fails to deserialize.  (Hex digest names are ASCII, so
the byte length checked by the source equals the character length used
here.) -/
def readEntries : List (String × String) → Option (List (String × String))
  | [] => some []
  | (name, c) :: rest =>
    if name.length = 64 then
      match deserializeEntry c with
      | none => none
      | some e =>
        match readEntries rest with
        | none => none
        | some l => some ((e.key, e.value) :: l)
    else readEntries rest

/-- `DiskCache::list`: scan the directory and build the
`serde_json::Map` from the collected pairs. -/
def DiskCache.list : FsM (List (String × String)) := do
  let entries ← fsReadDir
  match readEntries entries with
  | none => fsPanic
  | some l => pure (mapFromList l)

/-- One operation of the storage contract (the `Cache` trait). -/
inductive Op
  | addOp (k v : String)
  | delOp (k : String)
  | modOp (k v : String)
  | getOp (k : String)
  | listOp
deriving DecidableEq

/-- The observable result of one contract operation. -/
inductive Res
  | done
  | flag (b : Bool)
  | value (v? : Option String)
  | table (m : List (String × String))
deriving DecidableEq

def MemCache.step : Op → MemState → Res × MemState
  | .addOp k v, m => (.done, MemCache.add k v m)
  | .delOp k, m => (.flag (MemCache.delete k m).1, (MemCache.delete k m).2)
  | .modOp k v, m => (.flag (MemCache.modify k v m).1, (MemCache.modify k v m).2)
  | .getOp k, m => (.value (MemCache.get k m), m)
  | .listOp, m => (.table (MemCache.list m), m)

def MemCache.run : List Op → MemState → List Res × MemState
  | [], m => ([], m)
  | op :: ops, m =>
    let s := MemCache.step op m
    let r := MemCache.run ops s.2
    (s.1 :: r.1, r.2)

def DiskCache.step (hash : String → String) : Op → FsM Res
  | .addOp k v => do DiskCache.add hash k v; pure .done
  | .delOp k => do let b ← DiskCache.delete hash k; pure (.flag b)
  | .modOp k v => do let b ← DiskCache.modify hash k v; pure (.flag b)
  | .getOp k => do let v? ← DiskCache.get hash k; pure (.value v?)
  | .listOp => do let t ← DiskCache.list; pure (.table t)

def DiskCache.run (hash : String → String) : List Op → FsM (List Res)
  | [] => pure []
  | op :: ops => do
    let r ← DiskCache.step hash op
    let rs ← DiskCache.run hash ops
    pure (r :: rs)

/-- The facts about the hash-to-filename mapping (`blake3` hex digests)
that the proofs use, restricted to the keys `ks` in play: 64-character
output (`blake3::OUT_LEN * 2`) and no collisions among those keys.
`blake3` is collision-resistant but of course not injective on all of
`String`, so collision-freedom is assumed only for the finitely many
keys of a run. -/
def HashOk (hash : String → String) (ks : List String) : Prop :=
  (∀ k ∈ ks, (hash k).length = 64) ∧
  ∀ k1 ∈ ks, ∀ k2 ∈ ks, hash k1 = hash k2 → k1 = k2

instance (hash : String → String) (ks : List String) :
    Decidable (HashOk hash ks) := by
  unfold HashOk
  infer_instance

/-- The entry file (name, contents) representing one cache pair. -/
def entryFile (hash : String → String) (p : String × String) : String × String :=
  (hash p.1, serializeEntry ⟨p.1, p.2⟩)

/-- The directory representing a `MemCache` state: one entry file per
pair, in the same order. -/
def mapDir (hash : String → String) (m : MemState) : Dir :=
  m.map (entryFile hash)

def opKeys : Op → List String
  | .addOp k _ => [k]
  | .delOp k => [k]
  | .modOp k _ => [k]
  | .getOp k => [k]
  | .listOp => []

def opsKeys (ops : List Op) : List String := (ops.map opKeys).flatten

/-- The trace of filesystem events performed by one `DiskCache::add`. -/
def addTrace (hash : String → String) (k v : String) : List FsEvent :=
  [.create (hash k ++ ".new"), .write (hash k ++ ".new") (serializeEntry ⟨k, v⟩),
   .syncFile (hash k ++ ".new"), .rename (hash k ++ ".new") (hash k), .syncDir]

/-- A stand-in hash function for concrete witnesses: fixed 64-character
output, collision-free on the small key sets used in the witnesses (a
globally injective function into fixed-length names cannot exist, which
is why the theorems assume `HashOk` only on the keys in play). -/
def toyHash (k : String) : String :=
  if k = "a" then String.mk (List.replicate 64 '0')
  else if k = "b" then String.mk (List.replicate 64 '1')
  else String.mk (List.replicate 64 '2')

/-- The directory invariant of the durable backend (C9): file names are
unique, and every file in the directory is a well-formed entry file — a
64-character name equal to the hash of the key stored inside it, with
content that deserializes to a `{key, value}` record. -/
def DirWF (hash : String → String) (d : Dir) : Prop :=
  (keysOf d).Nodup ∧
  ∀ p ∈ d, ∃ k v, p.1 = hash k ∧ p.1.length = 64 ∧
    deserializeEntry p.2 = some ⟨k, v⟩

/-! ### Theorems -/

theorem alook_setEntry (k v q : String) (l : List (String × String)) :
    alook (setEntry k v l) q = if q = k then some v else alook l q := by
  induction l with
  | nil => simp [setEntry, alook]
  | cons p rest ih =>
    obtain ⟨k', v'⟩ := p
    by_cases hk : k' = k
    · subst hk
      by_cases hq : q = k' <;> simp [setEntry, alook, hq]
    · by_cases hq : q = k'
      · subst hq
        simp [setEntry, alook, hk, Ne.symm hk]
      · simp [setEntry, alook, hk, hq, ih]

theorem alook_delEntry_self (k : String) (l : List (String × String))
    (h : (keysOf l).Nodup) : alook (delEntry k l) k = none := by
  induction l with
  | nil => simp [delEntry, alook]
  | cons p rest ih =>
    obtain ⟨k', v'⟩ := p
    simp only [keysOf, List.map_cons, List.nodup_cons] at h
    by_cases hk : k' = k
    · subst hk
      rcases hl : alook rest k' with _ | w
      · simp [delEntry, hl]
      · exfalso
        apply h.1
        clear ih h
        induction rest with
        | nil => simp [alook] at hl
        | cons q rest' ih' =>
          obtain ⟨q1, q2⟩ := q
          by_cases hq : k' = q1
          · simp [hq]
          · simp only [alook, if_neg hq] at hl
            simp [ih' hl]
    · simp [delEntry, hk, alook, Ne.symm hk, ih h.2]

theorem alook_delEntry_other (k q : String) (l : List (String × String))
    (h : q ≠ k) : alook (delEntry k l) q = alook l q := by
  induction l with
  | nil => simp [delEntry]
  | cons p rest ih =>
    obtain ⟨k', v'⟩ := p
    by_cases hk : k' = k
    · subst hk
      simp [delEntry, alook, fun hh : q = k' => h hh]
    · by_cases hq : q = k' <;> simp [delEntry, alook, hk, hq, ih]

theorem alook_mapInsert (k v q : String) (l : List (String × String)) :
    alook (mapInsert k v l) q = if q = k then some v else alook l q := by
  induction l with
  | nil => simp [mapInsert, alook]
  | cons p rest ih =>
    obtain ⟨k', v'⟩ := p
    by_cases he : k = k'
    · subst he
      by_cases hq : q = k <;> simp [mapInsert, alook, hq]
    · by_cases hlt : k < k'
      · by_cases hq : q = k
        · subst hq
          simp [mapInsert, he, hlt, alook, Ne.symm he]
        · simp [mapInsert, he, hlt, alook, hq]
      · by_cases hq : q = k'
        · subst hq
          simp [mapInsert, he, hlt, alook, Ne.symm he]
        · simp [mapInsert, he, hlt, alook, hq, ih]

theorem alook_eq_none_iff (l : List (String × String)) (q : String) :
    alook l q = none ↔ q ∉ keysOf l := by
  induction l with
  | nil => simp [alook, keysOf]
  | cons p rest ih =>
    obtain ⟨k', v'⟩ := p
    by_cases hq : q = k' <;> simp [alook, keysOf, hq, ih, keysOf] at *

theorem mem_of_alook_eq_some {l : List (String × String)} {q w : String}
    (h : alook l q = some w) : (q, w) ∈ l := by
  induction l with
  | nil => simp [alook] at h
  | cons p rest ih =>
    obtain ⟨k', v'⟩ := p
    by_cases hq : q = k'
    · subst hq
      simp [alook] at h
      simp [h]
    · simp only [alook, if_neg hq] at h
      simp [ih h]

theorem ofirst_none (y : Option String) : ofirst none y = y := rfl

theorem ofirst_some (v : String) (y : Option String) : ofirst (some v) y = some v := rfl

theorem ofirst_none_right (x : Option String) : ofirst x none = x := by
  cases x <;> rfl

theorem ofirst_assoc (x y z : Option String) :
    ofirst (ofirst x y) z = ofirst x (ofirst y z) := by
  cases x <;> rfl

theorem alook_append (l1 l2 : List (String × String)) (q : String) :
    alook (l1 ++ l2) q = ofirst (alook l1 q) (alook l2 q) := by
  induction l1 with
  | nil => simp [alook, ofirst_none]
  | cons p rest ih =>
    obtain ⟨k', v'⟩ := p
    by_cases hq : q = k' <;> simp [alook, hq, ih, ofirst_some]

theorem mem_mapInsert {p : String × String} {k v : String}
    {l : List (String × String)} (h : p ∈ mapInsert k v l) :
    p = (k, v) ∨ p ∈ l := by
  induction l with
  | nil => simp [mapInsert] at h; simp [h]
  | cons q rest ih =>
    obtain ⟨k', v'⟩ := q
    by_cases he : k = k'
    · subst he
      simp [mapInsert] at h
      rcases h with h | h
      · left; simp [h]
      · right; simp [h]
    · by_cases hlt : k < k'
      · simp [mapInsert, he, hlt] at h
        rcases h with h | h | h
        · left; simp [h]
        · right; simp [h]
        · right; simp [h]
      · simp [mapInsert, he, hlt] at h
        rcases h with h | h
        · right; simp [h]
        · rcases ih h with h' | h' <;> simp [h']

theorem sorted_mapInsert {l : List (String × String)} (k v : String)
    (h : EntriesSorted l) : EntriesSorted (mapInsert k v l) := by
  induction l with
  | nil => simp [mapInsert, EntriesSorted]
  | cons p rest ih =>
    obtain ⟨k', v'⟩ := p
    rw [EntriesSorted, List.pairwise_cons] at h
    obtain ⟨hhead, hrest⟩ := h
    by_cases he : k = k'
    · subst he
      rw [EntriesSorted]
      simp only [mapInsert, if_pos rfl]
      exact List.Pairwise.cons hhead hrest
    · by_cases hlt : k < k'
      · rw [EntriesSorted]
        simp only [mapInsert, if_neg he, if_pos hlt]
        refine List.Pairwise.cons ?_ (List.Pairwise.cons hhead hrest)
        intro q hq
        rcases List.mem_cons.mp hq with hq | hq
        · simp [hq, hlt]
        · exact lt_trans hlt (hhead q hq)
      · have hgt : k' < k := by
          rcases lt_trichotomy k k' with h1 | h1 | h1
          · exact absurd h1 hlt
          · exact absurd h1 he
          · exact h1
        rw [EntriesSorted]
        simp only [mapInsert, if_neg he, if_neg hlt]
        refine List.Pairwise.cons ?_ (ih hrest)
        intro q hq
        rcases mem_mapInsert hq with h' | h'
        · simp [h', hgt]
        · exact hhead q h'

theorem sorted_foldl_mapInsert (l : List (String × String))
    (acc : List (String × String)) (hacc : EntriesSorted acc) :
    EntriesSorted (l.foldl (fun acc p => mapInsert p.1 p.2 acc) acc) := by
  induction l generalizing acc with
  | nil => simpa using hacc
  | cons p rest ih =>
    simp only [List.foldl_cons]
    exact ih _ (sorted_mapInsert p.1 p.2 hacc)

theorem sorted_mapFromList (l : List (String × String)) :
    EntriesSorted (mapFromList l) :=
  sorted_foldl_mapInsert l [] (by simp [EntriesSorted])

theorem nodup_keysOf_of_sorted {l : List (String × String)}
    (h : EntriesSorted l) : (keysOf l).Nodup := by
  rw [keysOf, List.Nodup, List.pairwise_map]
  exact h.imp (fun hlt => ne_of_lt hlt)

theorem alook_foldl_mapInsert (l : List (String × String)) (q : String) :
    ∀ acc, alook (l.foldl (fun acc p => mapInsert p.1 p.2 acc) acc) q =
      ofirst (alook l.reverse q) (alook acc q) := by
  induction l with
  | nil => simp [alook, ofirst_none]
  | cons p rest ih =>
    intro acc
    simp only [List.foldl_cons, List.reverse_cons]
    rw [ih, alook_append, ofirst_assoc, alook_mapInsert]
    obtain ⟨k', v'⟩ := p
    by_cases hq : q = k' <;> simp [alook, hq, ofirst_some, ofirst_none]

theorem alook_mapFromList (l : List (String × String)) (q : String) :
    alook (mapFromList l) q = alook l.reverse q := by
  rw [mapFromList, alook_foldl_mapInsert]
  simp [alook, ofirst_none_right]

theorem alook_reverse_of_nodup {l : List (String × String)} (q : String)
    (h : (keysOf l).Nodup) : alook l.reverse q = alook l q := by
  induction l with
  | nil => rfl
  | cons p rest ih =>
    obtain ⟨k', v'⟩ := p
    simp only [keysOf, List.map_cons, List.nodup_cons] at h
    rw [List.reverse_cons, alook_append]
    by_cases hq : q = k'
    · subst hq
      have h1 : alook rest q = none := by
        rw [alook_eq_none_iff]; exact h.1
      have h2 : alook rest.reverse q = none := by
        rw [alook_eq_none_iff, keysOf, List.map_reverse, List.mem_reverse]
        exact h.1
      simp [h2, alook, ofirst_none]
    · rw [ih h.2]
      simp [alook, hq, ofirst_none_right]

theorem char_ofNat_toNat (c : Char) : Char.ofNat c.toNat = c := by
  rcases c with ⟨val, valid⟩
  have hv : Nat.isValidChar val.toNat := valid
  simp only [Char.toNat, Char.ofNat, hv, dif_pos]
  rfl

theorem hexVal_hexDigit (n : Nat) (h : n < 16) :
    hexVal (hexDigit n) = some n := by
  interval_cases n <;> decide

theorem stripLit_append (lit rest : List Char) :
    stripLit lit (lit ++ rest) = some rest := by
  induction lit with
  | nil => rfl
  | cons t ts ih => simp [stripLit, ih]

theorem parseStrBody_escape (s rest : List Char) :
    parseStrBody (escapeList s ++ '"' :: rest) = some (s, rest) := by
  induction s with
  | nil =>
    rw [escapeList, List.nil_append, parseStrBody.eq_def]
    simp
  | cons c cs ih =>
    rw [escapeList, List.append_assoc]
    by_cases h1 : c = '"'
    · subst h1
      simp only [escapeChar, if_pos rfl, List.cons_append, List.nil_append]
      rw [parseStrBody.eq_def]
      simp [ih]
    · by_cases h2 : c = '\\'
      · subst h2
        simp only [escapeChar]
        norm_num
        rw [parseStrBody.eq_def]
        simp [ih]
      · by_cases h3 : c = '\x08'
        · subst h3
          simp only [escapeChar]
          norm_num
          rw [parseStrBody.eq_def]
          simp [ih]
        · by_cases h4 : c = '\x09'
          · subst h4
            simp only [escapeChar]
            norm_num
            rw [parseStrBody.eq_def]
            simp [ih]
          · by_cases h5 : c = '\x0a'
            · subst h5
              simp only [escapeChar]
              norm_num
              rw [parseStrBody.eq_def]
              simp [ih]
            · by_cases h6 : c = '\x0c'
              · subst h6
                simp only [escapeChar]
                norm_num
                rw [parseStrBody.eq_def]
                simp [ih]
              · by_cases h7 : c = '\x0d'
                · subst h7
                  simp only [escapeChar]
                  norm_num
                  rw [parseStrBody.eq_def]
                  simp [ih]
                · by_cases h8 : c.toNat < 32
                  · rw [escapeChar, if_neg h1, if_neg h2, if_neg h3, if_neg h4,
                      if_neg h5, if_neg h6, if_neg h7, if_pos h8]
                    rw [List.cons_append, List.cons_append, List.cons_append,
                      List.cons_append, List.cons_append, List.cons_append,
                      List.nil_append]
                    rw [parseStrBody.eq_def]
                    have hdiv : c.toNat / 16 < 16 := by omega
                    have hmod : c.toNat % 16 < 16 := by omega
                    simp only [hexVal_hexDigit _ hdiv, hexVal_hexDigit _ hmod]
                    simp [ih, hexVal]
                    rw [show c.toNat / 16 * 16 + c.toNat % 16 = c.toNat by omega,
                      char_ofNat_toNat]
                  · rw [escapeChar, if_neg h1, if_neg h2, if_neg h3, if_neg h4,
                      if_neg h5, if_neg h6, if_neg h7, if_neg h8]
                    rw [List.cons_append, List.nil_append, parseStrBody.eq_def]
                    simp [h1, h2, ih]

/-- Round trip: deserializing a serialized entry gives the entry back. -/
theorem deserializeEntry_serializeEntry (e : DiskCacheEntry) :
    deserializeEntry (serializeEntry e) = some e := by
  obtain ⟨k, v⟩ := e
  show parseEntryChars _ = _
  simp only [serializeEntry]
  simp only [List.append_assoc, List.cons_append, List.nil_append]
  simp only [parseEntryChars, stripLit_append, parseStrBody_escape]
  simp

theorem fsmBind {α β : Type} (x : FsM α) (f : α → FsM β) (d : Dir) :
    (x >>= f) d =
      match x d with
      | none => none
      | some (a, d', tr) =>
        match f a d' with
        | none => none
        | some (b, d'', tr') => some (b, d'', tr ++ tr') := rfl

theorem fsmPure {α : Type} (a : α) (d : Dir) :
    (pure a : FsM α) d = some (a, d, []) := rfl

theorem hashOk_mono {hash : String → String} {ks ks' : List String}
    (hsub : ks' ⊆ ks) (h : HashOk hash ks) : HashOk hash ks' :=
  ⟨fun k hk => h.1 k (hsub hk),
   fun k1 h1 k2 h2 he => h.2 k1 (hsub h1) k2 (hsub h2) he⟩

theorem setEntry_setEntry (k v1 v2 : String) (l : List (String × String)) :
    setEntry k v2 (setEntry k v1 l) = setEntry k v2 l := by
  induction l with
  | nil => simp [setEntry]
  | cons p rest ih =>
    obtain ⟨k', v'⟩ := p
    by_cases hk : k' = k
    · simp [setEntry, hk]
    · simp [setEntry, hk, ih]

theorem delEntry_setEntry (k v : String) (l : List (String × String)) :
    delEntry k (setEntry k v l) = delEntry k l := by
  induction l with
  | nil => simp [setEntry, delEntry]
  | cons p rest ih =>
    obtain ⟨k', v'⟩ := p
    by_cases hk : k' = k
    · simp [setEntry, delEntry, hk]
    · simp [setEntry, delEntry, hk, ih]

theorem delEntry_not_mem {k : String} {l : List (String × String)}
    (h : k ∉ keysOf l) : delEntry k l = l := by
  induction l with
  | nil => rfl
  | cons p rest ih =>
    obtain ⟨k', v'⟩ := p
    simp only [keysOf, List.map_cons, List.mem_cons] at h
    push_neg at h
    simp [delEntry, Ne.symm h.1, ih h.2]

theorem keysOf_setEntry (k v : String) (l : List (String × String)) :
    keysOf (setEntry k v l) =
      if k ∈ keysOf l then keysOf l else keysOf l ++ [k] := by
  induction l with
  | nil => simp [setEntry, keysOf]
  | cons p rest ih =>
    obtain ⟨k', v'⟩ := p
    by_cases hk : k' = k
    · subst hk
      simp [setEntry, keysOf]
    · by_cases hmem : k ∈ keysOf rest
      · simp only [setEntry, if_neg hk, keysOf, List.map_cons] at *
        rw [ih]
        simp [hmem, Ne.symm hk]
      · simp only [setEntry, if_neg hk, keysOf, List.map_cons] at *
        rw [ih]
        simp [hmem, Ne.symm hk]

theorem nodup_keysOf_setEntry (k v : String) {l : List (String × String)}
    (h : (keysOf l).Nodup) : (keysOf (setEntry k v l)).Nodup := by
  rw [keysOf_setEntry]
  by_cases hmem : k ∈ keysOf l
  · simpa [hmem] using h
  · rw [if_neg hmem]
    refine List.nodup_append.mpr ⟨h, List.nodup_singleton k, ?_⟩
    intro a ha hb
    simp only [List.mem_singleton] at hb
    subst hb
    exact hmem ha

theorem keysOf_delEntry_subset (k : String) (l : List (String × String)) :
    keysOf (delEntry k l) ⊆ keysOf l := by
  induction l with
  | nil => simp [delEntry]
  | cons p rest ih =>
    obtain ⟨k', v'⟩ := p
    by_cases hk : k' = k
    · simp [delEntry, hk, keysOf]
    · simp only [delEntry, if_neg hk, keysOf, List.map_cons]
      intro a ha
      rcases List.mem_cons.mp ha with h' | h'
      · simp [h']
      · exact List.mem_cons_of_mem _ (ih h')

theorem nodup_keysOf_delEntry (k : String) {l : List (String × String)}
    (h : (keysOf l).Nodup) : (keysOf (delEntry k l)).Nodup := by
  induction l with
  | nil => simp [delEntry, keysOf]
  | cons p rest ih =>
    obtain ⟨k', v'⟩ := p
    simp only [keysOf, List.map_cons, List.nodup_cons] at h
    by_cases hk : k' = k
    · simpa [delEntry, hk, keysOf] using h.2
    · simp only [delEntry, if_neg hk, keysOf, List.map_cons, List.nodup_cons]
      exact ⟨fun hmem => h.1 (keysOf_delEntry_subset k rest hmem), ih h.2⟩

theorem not_mem_keysOf_delEntry {k : String} {l : List (String × String)}
    (h : (keysOf l).Nodup) : k ∉ keysOf (delEntry k l) := by
  intro hmem
  have := alook_delEntry_self k l h
  rw [alook_eq_none_iff] at this
  exact this hmem

theorem keysOf_mapDir (hash : String → String) (m : MemState) :
    keysOf (mapDir hash m) = m.map (fun p => hash p.1) := by
  induction m with
  | nil => rfl
  | cons p rest ih => simp [mapDir, keysOf, entryFile, ih] at *

theorem alook_mapDir {hash : String → String} {m : MemState} (k : String)
    (hinj : ∀ k' ∈ keysOf m, hash k' = hash k → k' = k) :
    alook (mapDir hash m) (hash k) =
      (alook m k).map (fun v => serializeEntry ⟨k, v⟩) := by
  induction m with
  | nil => rfl
  | cons p rest ih =>
    obtain ⟨k', v'⟩ := p
    by_cases he : hash k = hash k'
    · have hk : k' = k := hinj k' (by simp [keysOf]) he.symm
      subst hk
      simp [mapDir, entryFile, alook, he]
    · have hk : ¬ k = k' := fun h => he (by rw [h])
      simp only [mapDir, List.map_cons, entryFile, alook, if_neg he, if_neg hk]
      exact ih (fun k2 h2 => hinj k2 (List.mem_cons_of_mem _ h2))

theorem mapDir_setEntry {hash : String → String} {m : MemState} (k v : String)
    (hinj : ∀ k' ∈ keysOf m, hash k' = hash k → k' = k) :
    setEntry (hash k) (serializeEntry ⟨k, v⟩) (mapDir hash m) =
      mapDir hash (setEntry k v m) := by
  induction m with
  | nil => rfl
  | cons p rest ih =>
    obtain ⟨k', v'⟩ := p
    by_cases he : hash k' = hash k
    · have hk : k' = k := hinj k' (by simp [keysOf]) he
      subst hk
      simp [mapDir, entryFile, setEntry]
    · have hk : ¬ k' = k := fun h => he (by rw [h])
      simp only [mapDir, List.map_cons, entryFile, setEntry, if_neg he, if_neg hk]
      simp only [List.cons.injEq, true_and]
      exact ih (fun k2 h2 => hinj k2 (List.mem_cons_of_mem _ h2))

theorem mapDir_delEntry {hash : String → String} {m : MemState} (k : String)
    (hinj : ∀ k' ∈ keysOf m, hash k' = hash k → k' = k) :
    delEntry (hash k) (mapDir hash m) = mapDir hash (delEntry k m) := by
  induction m with
  | nil => rfl
  | cons p rest ih =>
    obtain ⟨k', v'⟩ := p
    by_cases he : hash k' = hash k
    · have hk : k' = k := hinj k' (by simp [keysOf]) he
      subst hk
      simp [mapDir, entryFile, delEntry]
    · have hk : ¬ k' = k := fun h => he (by rw [h])
      simp only [mapDir, List.map_cons, entryFile, delEntry, if_neg he, if_neg hk]
      simp only [List.cons.injEq, true_and]
      exact ih (fun k2 h2 => hinj k2 (List.mem_cons_of_mem _ h2))

theorem alook_mapDir_of_length_ne {hash : String → String} {m : MemState}
    {n : String} (hlen : ∀ k' ∈ keysOf m, (hash k').length = 64)
    (hn : n.length ≠ 64) : alook (mapDir hash m) n = none := by
  rw [alook_eq_none_iff, keysOf_mapDir]
  intro hmem
  rcases List.mem_map.mp hmem with ⟨p, hp, hph⟩
  exact hn (hph ▸ hlen p.1 (List.mem_map_of_mem Prod.fst hp))

theorem readEntries_mapDir {hash : String → String} {m : MemState}
    (hlen : ∀ k' ∈ keysOf m, (hash k').length = 64) :
    readEntries (mapDir hash m) = some m := by
  induction m with
  | nil => rfl
  | cons p rest ih =>
    obtain ⟨k', v'⟩ := p
    have h64 : (hash k').length = 64 := hlen k' (by simp [keysOf])
    have ihh := ih (fun k2 h2 => hlen k2 (List.mem_cons_of_mem _ h2))
    rw [mapDir] at ihh
    simp only [mapDir, List.map_cons, entryFile, readEntries, h64, if_pos,
      deserializeEntry_serializeEntry]
    rw [ihh]

theorem DiskCache.add_run (hash : String → String) (k v : String) (d : Dir) :
    DiskCache.add hash k v d =
      some ((), setEntry (hash k) (serializeEntry ⟨k, v⟩)
        (delEntry (hash k ++ ".new") d), addTrace hash k v) := by
  simp [DiskCache.add, fsmBind, fsCreate, fsWriteAll, fsSyncFile, fsRename,
    fsSyncDir, alook_setEntry, setEntry_setEntry, delEntry_setEntry, addTrace]

theorem DiskCache.delete_run (hash : String → String) (k : String) (d : Dir) :
    DiskCache.delete hash k d =
      match alook d (hash k) with
      | none => some (false, d, [])
      | some _ =>
        some (true, delEntry (hash k) d, [.remove (hash k), .syncDir]) := by
  cases h : alook d (hash k) <;>
    simp [DiskCache.delete, fsmBind, fsRemoveFile, fsSyncDir, fsmPure, h]

theorem DiskCache.modify_run (hash : String → String) (k v : String) (d : Dir) :
    DiskCache.modify hash k v d =
      match alook d (hash k) with
      | none => some (false, d, [])
      | some _ =>
        some (true, setEntry (hash k) (serializeEntry ⟨k, v⟩)
          (delEntry (hash k ++ ".new") d), addTrace hash k v) := by
  cases h : alook d (hash k) <;>
    simp [DiskCache.modify, fsmBind, fsTryExists, fsmPure, h, DiskCache.add_run]

theorem DiskCache.get_run (hash : String → String) (k : String) (d : Dir) :
    DiskCache.get hash k d =
      match alook d (hash k) with
      | none => some (none, d, [])
      | some c =>
        match deserializeEntry c with
        | none => none
        | some e => some (some e.value, d, []) := by
  cases h : alook d (hash k)
  · simp [DiskCache.get, fsmBind, fsReadFile, fsmPure, h]
  · rename_i c
    cases hd : deserializeEntry c <;>
      simp [DiskCache.get, fsmBind, fsReadFile, fsmPure, fsPanic, h, hd]

theorem DiskCache.list_run (d : Dir) :
    DiskCache.list d =
      match readEntries d with
      | none => none
      | some l => some (mapFromList l, d, []) := by
  cases h : readEntries d <;>
    simp [DiskCache.list, fsmBind, fsReadDir, fsmPure, fsPanic, h]

/-- The temporary file name is four characters longer than the final
name, so it can never collide with a 64-character entry name. -/
theorem tmp_name_length (hash : String → String) (k : String)
    (h : (hash k).length = 64) : (hash k ++ ".new").length = 68 := by
  rw [String.length_append, h]
  decide

theorem delEntry_tmp_mapDir (hash : String → String) (k : String)
    (m : MemState) (hk : (hash k).length = 64)
    (hlen : ∀ k' ∈ keysOf m, (hash k').length = 64) :
    delEntry (hash k ++ ".new") (mapDir hash m) = mapDir hash m := by
  apply delEntry_not_mem
  rw [← alook_eq_none_iff]
  exact alook_mapDir_of_length_ne hlen
    (by rw [tmp_name_length hash k hk]; omega)

theorem keysOf_setEntry_subset (k v : String) (m : List (String × String)) :
    keysOf (setEntry k v m) ⊆ k :: keysOf m := by
  rw [keysOf_setEntry]
  by_cases hmem : k ∈ keysOf m
  · rw [if_pos hmem]
    exact fun a ha => List.mem_cons_of_mem _ ha
  · rw [if_neg hmem]
    intro a ha
    rcases List.mem_append.mp ha with h | h
    · exact List.mem_cons_of_mem _ h
    · simp only [List.mem_singleton] at h
      simp [h]

theorem MemCache.step_keys (op : Op) (m : MemState) :
    keysOf (MemCache.step op m).2 ⊆ opKeys op ++ keysOf m := by
  cases op with
  | addOp k v =>
    simpa [MemCache.step, MemCache.add, opKeys] using keysOf_setEntry_subset k v m
  | delOp k =>
    simp only [MemCache.step, MemCache.delete, opKeys]
    exact fun a ha => List.mem_append_right _ (keysOf_delEntry_subset k m ha)
  | modOp k v =>
    simp only [MemCache.step, MemCache.modify]
    cases h : alook m k with
    | none => exact fun a ha => List.mem_append_right _ ha
    | some w =>
      simpa [opKeys] using keysOf_setEntry_subset k v m
  | getOp k => exact fun a ha => List.mem_append_right _ ha
  | listOp => exact fun a ha => List.mem_append_right _ ha

theorem MemCache.step_nodup (op : Op) (m : MemState)
    (hn : (keysOf m).Nodup) : (keysOf (MemCache.step op m).2).Nodup := by
  cases op with
  | addOp k v => exact nodup_keysOf_setEntry k v hn
  | delOp k => exact nodup_keysOf_delEntry k hn
  | modOp k v =>
    simp only [MemCache.step, MemCache.modify]
    cases h : alook m k with
    | none => exact hn
    | some w => exact nodup_keysOf_setEntry k v hn
  | getOp k => exact hn
  | listOp => exact hn

theorem step_sim (hash : String → String) (op : Op) (m : MemState)
    (hok : HashOk hash (opKeys op ++ keysOf m)) :
    ∃ tr, DiskCache.step hash op (mapDir hash m) =
      some ((MemCache.step op m).1, mapDir hash (MemCache.step op m).2, tr) := by
  have hlen : ∀ k' ∈ keysOf m, (hash k').length = 64 :=
    fun k' hk' => hok.1 k' (List.mem_append_right _ hk')
  cases op with
  | addOp k v =>
    have hkmem : k ∈ opKeys (Op.addOp k v) ++ keysOf m :=
      List.mem_append_left _ (by simp [opKeys])
    have hk64 : (hash k).length = 64 := hok.1 k hkmem
    have hinj : ∀ k' ∈ keysOf m, hash k' = hash k → k' = k :=
      fun k' h' he => hok.2 k' (List.mem_append_right _ h') k hkmem he
    refine ⟨addTrace hash k v, ?_⟩
    simp only [DiskCache.step, fsmBind, DiskCache.add_run,
      delEntry_tmp_mapDir hash k m hk64 hlen, mapDir_setEntry k v hinj]
    simp [fsmPure, MemCache.step, MemCache.add]
  | delOp k =>
    have hkmem : k ∈ opKeys (Op.delOp k) ++ keysOf m :=
      List.mem_append_left _ (by simp [opKeys])
    have hinj : ∀ k' ∈ keysOf m, hash k' = hash k → k' = k :=
      fun k' h' he => hok.2 k' (List.mem_append_right _ h') k hkmem he
    cases halook : alook m k with
    | none =>
      refine ⟨[], ?_⟩
      have hdel : delEntry k m = m :=
        delEntry_not_mem ((alook_eq_none_iff m k).mp halook)
      simp only [DiskCache.step, fsmBind, DiskCache.delete_run,
        alook_mapDir k hinj, halook]
      simp [fsmPure, MemCache.step, MemCache.delete, halook, hdel]
    | some w =>
      refine ⟨[.remove (hash k), .syncDir], ?_⟩
      simp only [DiskCache.step, fsmBind, DiskCache.delete_run,
        alook_mapDir k hinj, halook, mapDir_delEntry k hinj]
      simp [fsmPure, MemCache.step, MemCache.delete, halook]
  | modOp k v =>
    have hkmem : k ∈ opKeys (Op.modOp k v) ++ keysOf m :=
      List.mem_append_left _ (by simp [opKeys])
    have hk64 : (hash k).length = 64 := hok.1 k hkmem
    have hinj : ∀ k' ∈ keysOf m, hash k' = hash k → k' = k :=
      fun k' h' he => hok.2 k' (List.mem_append_right _ h') k hkmem he
    cases halook : alook m k with
    | none =>
      refine ⟨[], ?_⟩
      simp only [DiskCache.step, fsmBind, DiskCache.modify_run,
        alook_mapDir k hinj, halook]
      simp [fsmPure, MemCache.step, MemCache.modify, halook]
    | some w =>
      refine ⟨addTrace hash k v, ?_⟩
      simp only [DiskCache.step, fsmBind, DiskCache.modify_run,
        alook_mapDir k hinj, halook,
        delEntry_tmp_mapDir hash k m hk64 hlen, mapDir_setEntry k v hinj]
      simp [fsmPure, MemCache.step, MemCache.modify, halook]
  | getOp k =>
    have hkmem : k ∈ opKeys (Op.getOp k) ++ keysOf m :=
      List.mem_append_left _ (by simp [opKeys])
    have hinj : ∀ k' ∈ keysOf m, hash k' = hash k → k' = k :=
      fun k' h' he => hok.2 k' (List.mem_append_right _ h') k hkmem he
    cases halook : alook m k with
    | none =>
      refine ⟨[], ?_⟩
      simp only [DiskCache.step, fsmBind, DiskCache.get_run,
        alook_mapDir k hinj, halook]
      simp [fsmPure, MemCache.step, MemCache.get, halook]
    | some w =>
      refine ⟨[], ?_⟩
      simp only [DiskCache.step, fsmBind, DiskCache.get_run,
        alook_mapDir k hinj, halook]
      simp [fsmPure, MemCache.step, MemCache.get, halook,
        deserializeEntry_serializeEntry]
  | listOp =>
    refine ⟨[], ?_⟩
    simp only [DiskCache.step, fsmBind, DiskCache.list_run,
      readEntries_mapDir hlen]
    simp [fsmPure, MemCache.step, MemCache.list]

theorem opsKeys_cons (op : Op) (ops : List Op) :
    opsKeys (op :: ops) = opKeys op ++ opsKeys ops := by
  simp [opsKeys]

theorem run_sim (hash : String → String) (ops : List Op) :
    ∀ m : MemState, (keysOf m).Nodup →
    HashOk hash (opsKeys ops ++ keysOf m) →
    ∃ tr, DiskCache.run hash ops (mapDir hash m) =
      some ((MemCache.run ops m).1, mapDir hash (MemCache.run ops m).2, tr) := by
  induction ops with
  | nil =>
    intro m _ _
    exact ⟨[], by simp [DiskCache.run, MemCache.run, fsmPure]⟩
  | cons op ops ih =>
    intro m hn hok
    have hsub1 : opKeys op ++ keysOf m ⊆ opsKeys (op :: ops) ++ keysOf m := by
      intro a ha
      rcases List.mem_append.mp ha with h | h
      · exact List.mem_append_left _ (by rw [opsKeys_cons]; exact List.mem_append_left _ h)
      · exact List.mem_append_right _ h
    have hsub2 : opsKeys ops ++ keysOf (MemCache.step op m).2 ⊆
        opsKeys (op :: ops) ++ keysOf m := by
      intro a ha
      rcases List.mem_append.mp ha with h | h
      · exact List.mem_append_left _ (by rw [opsKeys_cons]; exact List.mem_append_right _ h)
      · rcases List.mem_append.mp (MemCache.step_keys op m h) with h' | h'
        · exact List.mem_append_left _ (by rw [opsKeys_cons]; exact List.mem_append_left _ h')
        · exact List.mem_append_right _ h'
    obtain ⟨tr1, h1⟩ := step_sim hash op m (hashOk_mono hsub1 hok)
    obtain ⟨tr2, h2⟩ := ih (MemCache.step op m).2 (MemCache.step_nodup op m hn)
      (hashOk_mono hsub2 hok)
    refine ⟨tr1 ++ tr2, ?_⟩
    simp only [DiskCache.run, fsmBind, h1, h2, MemCache.run, fsmPure]
    simp

theorem alook_isSome_iff (l : List (String × String)) (q : String) :
    (alook l q).isSome = true ↔ q ∈ keysOf l := by
  rcases h : alook l q with _ | w
  · simpa using (alook_eq_none_iff l q).mp h
  · simp only [Option.isSome_some, true_iff]
    by_contra hq
    rw [← alook_eq_none_iff] at hq
    rw [hq] at h
    exact Option.noConfusion h

theorem alook_of_mem_nodup {l : List (String × String)} {k v : String}
    (hn : (keysOf l).Nodup) (h : (k, v) ∈ l) : alook l k = some v := by
  induction l with
  | nil => simp at h
  | cons p rest ih =>
    obtain ⟨k', v'⟩ := p
    simp only [keysOf, List.map_cons, List.nodup_cons] at hn
    rcases List.mem_cons.mp h with h' | h'
    · obtain ⟨h1, h2⟩ := Prod.mk.injEq .. ▸ h'
      subst h1; subst h2
      simp [alook]
    · have hk : ¬ k = k' := by
        intro he
        subst he
        exact hn.1 (List.mem_map_of_mem Prod.fst h')
      simp [alook, hk, ih hn.2 h']

theorem mem_mapFromList_of_alook {l : List (String × String)} {k v : String}
    (hn : (keysOf l).Nodup) (h : alook l k = some v) : (k, v) ∈ mapFromList l :=
  mem_of_alook_eq_some
    (by rw [alook_mapFromList, alook_reverse_of_nodup _ hn, h])

theorem alook_mapFromList_nodup {l : List (String × String)} (q : String)
    (hn : (keysOf l).Nodup) : alook (mapFromList l) q = alook l q := by
  rw [alook_mapFromList, alook_reverse_of_nodup _ hn]

theorem setEntry_not_mem {k : String} {l : List (String × String)} (v : String)
    (h : k ∉ keysOf l) : setEntry k v l = l ++ [(k, v)] := by
  induction l with
  | nil => rfl
  | cons p rest ih =>
    obtain ⟨k', v'⟩ := p
    simp only [keysOf, List.map_cons, List.mem_cons] at h
    push_neg at h
    simp [setEntry, Ne.symm h.1, ih h.2]

theorem filter_key_eq_nil {l : List (String × String)} {k : String}
    (h : k ∉ keysOf l) : l.filter (fun p => p.1 == k) = [] := by
  induction l with
  | nil => rfl
  | cons p rest ih =>
    obtain ⟨k', v'⟩ := p
    simp only [keysOf, List.map_cons, List.mem_cons] at h
    push_neg at h
    have hbeq : (k' == k) = false := by
      simpa using fun he => h.1 he.symm
    simp [List.filter, hbeq, ih h.2]

theorem filter_key_of_nodup {l : List (String × String)} {k v : String}
    (hn : (keysOf l).Nodup) (h : alook l k = some v) :
    l.filter (fun p => p.1 == k) = [(k, v)] := by
  induction l with
  | nil => simp [alook] at h
  | cons p rest ih =>
    obtain ⟨k', v'⟩ := p
    simp only [keysOf, List.map_cons, List.nodup_cons] at hn
    by_cases hk : k = k'
    · subst hk
      simp only [alook, if_pos rfl] at h
      obtain rfl : v' = v := Option.some.injEq .. ▸ h
      simp [List.filter, filter_key_eq_nil hn.1]
    · simp only [alook, if_neg hk] at h
      simp only [List.filter]
      rw [show ((k', v').1 == k) = false by simpa using fun he => hk he.symm]
      exact ih hn.2 h

theorem alook_none_of_forall_gt {t : List (String × String)} {q : String}
    (h : ∀ x ∈ t, q < x.1) : alook t q = none := by
  rw [alook_eq_none_iff]
  intro hmem
  rcases List.mem_map.mp hmem with ⟨p, hp, hpq⟩
  exact absurd (hpq ▸ h p hp) (lt_irrefl q)

/-- Two strictly key-sorted association lists with the same lookup
function are equal. -/
theorem sorted_ext {s1 s2 : List (String × String)}
    (h1 : EntriesSorted s1) (h2 : EntriesSorted s2)
    (h : ∀ q, alook s1 q = alook s2 q) : s1 = s2 := by
  induction s1 generalizing s2 with
  | nil =>
    cases s2 with
    | nil => rfl
    | cons p2 t2 =>
      obtain ⟨k2, v2⟩ := p2
      have := h k2
      simp [alook] at this
  | cons p1 t1 ih =>
    obtain ⟨k1, v1⟩ := p1
    cases s2 with
    | nil =>
      have := h k1
      simp [alook] at this
    | cons p2 t2 =>
      obtain ⟨k2, v2⟩ := p2
      rw [EntriesSorted, List.pairwise_cons] at h1 h2
      have hkeys : k1 = k2 := by
        rcases lt_trichotomy k1 k2 with hlt | he | hgt
        · exfalso
          have hs1 : alook ((k1, v1) :: t1) k1 = some v1 := by simp [alook]
          have hs2 : alook ((k2, v2) :: t2) k1 = none := by
            have hne : ¬ k1 = k2 := ne_of_lt hlt
            simp only [alook, if_neg hne]
            exact alook_none_of_forall_gt (fun x hx => lt_trans hlt (h2.1 x hx))
          rw [h k1, hs2] at hs1
          exact Option.noConfusion hs1
        · exact he
        · exfalso
          have hs2 : alook ((k2, v2) :: t2) k2 = some v2 := by simp [alook]
          have hs1 : alook ((k1, v1) :: t1) k2 = none := by
            have hne : ¬ k2 = k1 := ne_of_lt hgt
            simp only [alook, if_neg hne]
            exact alook_none_of_forall_gt (fun x hx => lt_trans hgt (h1.1 x hx))
          rw [← h k2, hs1] at hs2
          exact Option.noConfusion hs2
      subst hkeys
      have hvals : v1 = v2 := by
        have := h k1
        simpa [alook] using this
      subst hvals
      have htails : ∀ q, alook t1 q = alook t2 q := by
        intro q
        by_cases hq : q = k1
        · subst hq
          rw [alook_none_of_forall_gt h1.1, alook_none_of_forall_gt h2.1]
        · have := h q
          simpa [alook, hq] using this
      rw [ih h1.2 h2.2 htails]

theorem keysOf_perm {l1 l2 : List (String × String)} (h : l1.Perm l2) :
    (keysOf l1).Perm (keysOf l2) := h.map Prod.fst

theorem alook_perm {l1 l2 : List (String × String)} (h : l1.Perm l2)
    (hn : (keysOf l1).Nodup) (q : String) : alook l1 q = alook l2 q := by
  have hn2 : (keysOf l2).Nodup := (keysOf_perm h).nodup_iff.mp hn
  rcases h1 : alook l1 q with _ | w
  · rw [alook_eq_none_iff] at h1
    have : q ∉ keysOf l2 := fun hq => h1 ((keysOf_perm h).mem_iff.mpr hq)
    rw [eq_comm, alook_eq_none_iff]
    exact this
  · have hmem : (q, w) ∈ l2 := h.mem_iff.mp (mem_of_alook_eq_some h1)
    rw [eq_comm]
    exact alook_of_mem_nodup hn2 hmem

/-- `mapFromList` depends only on the multiset of pairs: enumeration
order (`HashMap` iteration order, `read_dir` order) does not change the
resulting JSON object. -/
theorem mapFromList_perm {l1 l2 : List (String × String)} (h : l1.Perm l2)
    (hn : (keysOf l1).Nodup) : mapFromList l1 = mapFromList l2 := by
  apply sorted_ext (sorted_mapFromList l1) (sorted_mapFromList l2)
  intro q
  rw [alook_mapFromList_nodup q hn,
    alook_mapFromList_nodup q ((keysOf_perm h).nodup_iff.mp hn)]
  exact alook_perm h hn q

theorem foldl_setEntry_of_disjoint (ps : List (String × String)) :
    ∀ acc : List (String × String), (keysOf ps).Nodup →
    (∀ a ∈ keysOf ps, a ∉ keysOf acc) →
    ps.foldl (fun acc p => setEntry p.1 p.2 acc) acc = acc ++ ps := by
  induction ps with
  | nil => intro acc _ _; simp
  | cons p rest ih =>
    intro acc hn hdisj
    obtain ⟨k, v⟩ := p
    simp only [keysOf, List.map_cons, List.nodup_cons] at hn
    simp only [List.foldl_cons]
    rw [setEntry_not_mem v (hdisj k (by simp [keysOf]))]
    rw [ih (acc ++ [(k, v)]) hn.2 ?_]
    · simp
    · intro a ha
      simp only [keysOf, List.map_append, List.mem_append]
      push_neg
      refine ⟨hdisj a (List.mem_cons_of_mem _ ha), ?_⟩
      simp only [List.map_cons, List.map_nil, List.mem_singleton]
      intro he
      subst he
      exact hn.1 ha

theorem MemCache.run_adds (ps : List (String × String)) :
    ∀ m : MemState,
    (MemCache.run (ps.map (fun p => Op.addOp p.1 p.2)) m).2 =
      ps.foldl (fun acc p => setEntry p.1 p.2 acc) m := by
  induction ps with
  | nil => intro m; rfl
  | cons p rest ih =>
    intro m
    simp only [List.map_cons, MemCache.run, MemCache.step, MemCache.add,
      List.foldl_cons]
    exact ih (setEntry p.1 p.2 m)

theorem opsKeys_adds (ps : List (String × String)) :
    opsKeys (ps.map (fun p => Op.addOp p.1 p.2)) = keysOf ps := by
  induction ps with
  | nil => rfl
  | cons p rest ih =>
    simp only [List.map_cons, opsKeys_cons, opKeys, ih, keysOf, List.map_cons]
    rfl

theorem MemCache.run_keys (ops : List Op) :
    ∀ m : MemState, keysOf (MemCache.run ops m).2 ⊆ opsKeys ops ++ keysOf m := by
  induction ops with
  | nil => intro m a ha; exact List.mem_append_right _ ha
  | cons op ops ih =>
    intro m a ha
    simp only [MemCache.run] at ha
    rcases List.mem_append.mp (ih (MemCache.step op m).2 ha) with h | h
    · exact List.mem_append_left _ (by rw [opsKeys_cons]; exact List.mem_append_right _ h)
    · rcases List.mem_append.mp (MemCache.step_keys op m h) with h' | h'
      · exact List.mem_append_left _ (by rw [opsKeys_cons]; exact List.mem_append_left _ h')
      · exact List.mem_append_right _ h'

theorem MemCache.run_nodup (ops : List Op) :
    ∀ m : MemState, (keysOf m).Nodup → (keysOf (MemCache.run ops m).2).Nodup := by
  induction ops with
  | nil => intro m hn; exact hn
  | cons op ops ih =>
    intro m hn
    simp only [MemCache.run]
    exact ih _ (MemCache.step_nodup op m hn)

/-- **C1.** For every key `k` and value `v`, in both backends, immediately
after `add(k, v)` completes, `get(k)` returns `v` and `list()` contains
the pair `(k, v)`.  States with duplicate keys are not reachable for a
`HashMap`, hence the `Nodup` hypothesis; the disk state is an arbitrary
well-formed directory (the image of a memory state). -/
theorem claim_add_then_get_and_list (hash : String → String) (k v : String)
    (m : MemState) (hn : (keysOf m).Nodup)
    (hok : HashOk hash (k :: keysOf m)) :
    (MemCache.get k (MemCache.add k v m) = some v ∧
     (k, v) ∈ MemCache.list (MemCache.add k v m)) ∧
    (∃ d tr, DiskCache.add hash k v (mapDir hash m) = some ((), d, tr) ∧
      DiskCache.get hash k d = some (some v, d, []) ∧
      ∃ l, DiskCache.list d = some (l, d, []) ∧ (k, v) ∈ l) := by
  have hkmem : k ∈ k :: keysOf m := by simp
  have hk64 : (hash k).length = 64 := hok.1 k hkmem
  have hlen : ∀ k' ∈ keysOf m, (hash k').length = 64 :=
    fun k' h' => hok.1 k' (List.mem_cons_of_mem _ h')
  have halook : alook (setEntry k v m) k = some v := by
    rw [alook_setEntry]; simp
  have hn' : (keysOf (setEntry k v m)).Nodup := nodup_keysOf_setEntry k v hn
  have hinj' : ∀ k' ∈ keysOf (setEntry k v m), hash k' = hash k → k' = k :=
    fun k' h' he =>
      hok.2 k' (keysOf_setEntry_subset k v m h') k hkmem he
  have hlen' : ∀ k' ∈ keysOf (setEntry k v m), (hash k').length = 64 :=
    fun k' h' => hok.1 k' (keysOf_setEntry_subset k v m h')
  constructor
  · exact ⟨halook, mem_mapFromList_of_alook hn' halook⟩
  · refine ⟨mapDir hash (setEntry k v m), addTrace hash k v, ?_, ?_, ?_⟩
    · rw [DiskCache.add_run, delEntry_tmp_mapDir hash k m hk64 hlen,
        mapDir_setEntry k v (fun k' h' he =>
          hok.2 k' (List.mem_cons_of_mem _ h') k hkmem he)]
    · rw [DiskCache.get_run, alook_mapDir k hinj', halook]
      simp [deserializeEntry_serializeEntry]
    · refine ⟨mapFromList (setEntry k v m), ?_, ?_⟩
      · rw [DiskCache.list_run, readEntries_mapDir hlen']
      · exact mem_mapFromList_of_alook hn' halook

/-- Witness for **C1** at `k = "a"`, `v = "x"`, empty prior cache. -/
theorem claim_add_then_get_and_list_witness :
    (keysOf ([] : MemState)).Nodup ∧ HashOk toyHash ("a" :: keysOf ([] : MemState)) ∧
    ((MemCache.get "a" (MemCache.add "a" "x" []) = some "x" ∧
      ("a", "x") ∈ MemCache.list (MemCache.add "a" "x" [])) ∧
     (∃ d tr, DiskCache.add toyHash "a" "x" (mapDir toyHash []) = some ((), d, tr) ∧
       DiskCache.get toyHash "a" d = some (some "x", d, []) ∧
       ∃ l, DiskCache.list d = some (l, d, []) ∧ ("a", "x") ∈ l)) :=
  ⟨by decide, by decide,
   claim_add_then_get_and_list toyHash "a" "x" [] (by decide) (by decide)⟩

/-- **C2.** The volatile and durable backends are observationally
equivalent: every finite sequence of contract operations applied from the
empty cache produces the same sequence of results in both backends (the
disk run panics nowhere and returns exactly the memory backend's
results; `list` results are the key-sorted JSON objects, equal outright,
hence equal as key-to-value mappings). -/
theorem claim_backends_observationally_equivalent (hash : String → String)
    (ops : List Op) (hok : HashOk hash (opsKeys ops)) :
    ∃ d tr, DiskCache.run hash ops [] =
      some ((MemCache.run ops []).1, d, tr) := by
  obtain ⟨tr, h⟩ := run_sim hash ops [] (by simp [keysOf])
    (by simpa [keysOf] using hok)
  refine ⟨mapDir hash (MemCache.run ops []).2, tr, ?_⟩
  simpa [mapDir] using h

/-- Witness for **C2** on a five-operation run exercising every
operation. -/
theorem claim_backends_observationally_equivalent_witness :
    HashOk toyHash (opsKeys [Op.addOp "a" "x", Op.listOp, Op.getOp "a",
      Op.delOp "a", Op.modOp "b" "y"]) ∧
    ∃ d tr,
      DiskCache.run toyHash [Op.addOp "a" "x", Op.listOp, Op.getOp "a",
        Op.delOp "a", Op.modOp "b" "y"] [] =
      some ((MemCache.run [Op.addOp "a" "x", Op.listOp, Op.getOp "a",
        Op.delOp "a", Op.modOp "b" "y"] []).1, d, tr) :=
  ⟨by decide, claim_backends_observationally_equivalent toyHash _ (by decide)⟩

/-- **C3.** In both backends, for a key `k` with no live entry (never
added, or deleted and not re-added), `get(k)` returns absence,
`delete(k)` returns `false`, and `modify(k, v)` returns `false` for every
`v`, each leaving the state unchanged.  Absence is surfaced as a normal
`Option`/`Bool` result: on the disk side every result is a `some`, i.e.
no `unwrap` panic (the error path of the model). -/
theorem claim_absent_key_reports_absence (hash : String → String) (k : String)
    (m : MemState) (hok : HashOk hash (k :: keysOf m)) (habs : k ∉ keysOf m) :
    (MemCache.get k m = none ∧
     MemCache.delete k m = (false, m) ∧
     ∀ v, MemCache.modify k v m = (false, m)) ∧
    (DiskCache.get hash k (mapDir hash m) = some (none, mapDir hash m, []) ∧
     DiskCache.delete hash k (mapDir hash m) = some (false, mapDir hash m, []) ∧
     ∀ v, DiskCache.modify hash k v (mapDir hash m) =
       some (false, mapDir hash m, [])) := by
  have halook : alook m k = none := (alook_eq_none_iff m k).mpr habs
  have hkmem : k ∈ k :: keysOf m := by simp
  have hinj : ∀ k' ∈ keysOf m, hash k' = hash k → k' = k :=
    fun k' h' he => hok.2 k' (List.mem_cons_of_mem _ h') k hkmem he
  have hdisk : alook (mapDir hash m) (hash k) = none := by
    rw [alook_mapDir k hinj, halook]; rfl
  refine ⟨⟨halook, ?_, ?_⟩, ?_, ?_, ?_⟩
  · simp [MemCache.delete, halook, delEntry_not_mem habs]
  · intro v
    simp [MemCache.modify, halook]
  · rw [DiskCache.get_run, hdisk]
  · rw [DiskCache.delete_run, hdisk]
  · intro v
    rw [DiskCache.modify_run, hdisk]

/-- Witness for **C3** at `k = "a"` over the empty cache. -/
theorem claim_absent_key_reports_absence_witness :
    HashOk toyHash ("a" :: keysOf ([] : MemState)) ∧ "a" ∉ keysOf ([] : MemState) ∧
    ((MemCache.get "a" [] = none ∧
      MemCache.delete "a" [] = (false, []) ∧
      ∀ v, MemCache.modify "a" v [] = (false, [])) ∧
     (DiskCache.get toyHash "a" (mapDir toyHash []) =
        some (none, mapDir toyHash [], []) ∧
      DiskCache.delete toyHash "a" (mapDir toyHash []) =
        some (false, mapDir toyHash [], []) ∧
      ∀ v, DiskCache.modify toyHash "a" v (mapDir toyHash []) =
        some (false, mapDir toyHash [], []))) :=
  ⟨by decide, by decide,
   claim_absent_key_reports_absence toyHash "a" [] (by decide) (by decide)⟩

/-- **C4.** In both backends, deleting a live entry returns `true`
exactly once: the repeated `delete(k)` without an intervening `add`
returns `false` (leaving the state unchanged), and `get(k)` after the
successful delete returns absence. -/
theorem claim_delete_true_exactly_once (hash : String → String) (k : String)
    (m : MemState) (hn : (keysOf m).Nodup) (hok : HashOk hash (k :: keysOf m))
    (hpres : k ∈ keysOf m) :
    ((MemCache.delete k m).1 = true ∧
     MemCache.delete k (MemCache.delete k m).2 =
       (false, (MemCache.delete k m).2) ∧
     MemCache.get k (MemCache.delete k m).2 = none) ∧
    (∃ d, DiskCache.delete hash k (mapDir hash m) =
        some (true, d, [.remove (hash k), .syncDir]) ∧
      DiskCache.delete hash k d = some (false, d, []) ∧
      DiskCache.get hash k d = some (none, d, [])) := by
  have hkmem : k ∈ k :: keysOf m := by simp
  have hinj : ∀ k' ∈ keysOf m, hash k' = hash k → k' = k :=
    fun k' h' he => hok.2 k' (List.mem_cons_of_mem _ h') k hkmem he
  obtain ⟨w, hw⟩ : ∃ w, alook m k = some w := by
    rcases h : alook m k with _ | w
    · exact absurd ((alook_eq_none_iff m k).mp h) (by simpa using hpres)
    · exact ⟨w, rfl⟩
  have habs2 : alook (delEntry k m) k = none := alook_delEntry_self k m hn
  have hnotmem2 : k ∉ keysOf (delEntry k m) := (alook_eq_none_iff _ k).mp habs2
  have hinj2 : ∀ k' ∈ keysOf (delEntry k m), hash k' = hash k → k' = k :=
    fun k' h' he => hinj k' (keysOf_delEntry_subset k m h') he
  have hdisk2 : alook (mapDir hash (delEntry k m)) (hash k) = none := by
    rw [alook_mapDir k hinj2, habs2]; rfl
  refine ⟨⟨?_, ?_, ?_⟩, mapDir hash (delEntry k m), ?_, ?_, ?_⟩
  · simp [MemCache.delete, hw]
  · simp [MemCache.delete, habs2, delEntry_not_mem hnotmem2]
  · exact habs2
  · rw [DiskCache.delete_run, alook_mapDir k hinj, hw,
      show ((some w).map fun v => serializeEntry ⟨k, v⟩) =
        some (serializeEntry ⟨k, w⟩) from rfl]
    rw [mapDir_delEntry k hinj]
  · rw [DiskCache.delete_run, hdisk2]
  · rw [DiskCache.get_run, hdisk2]

/-- Witness for **C4** at `k = "a"` over the one-entry cache
`[("a", "x")]`. -/
theorem claim_delete_true_exactly_once_witness :
    (keysOf [("a", "x")]).Nodup ∧ HashOk toyHash ("a" :: keysOf [("a", "x")]) ∧
    "a" ∈ keysOf [("a", "x")] ∧
    (((MemCache.delete "a" [("a", "x")]).1 = true ∧
      MemCache.delete "a" (MemCache.delete "a" [("a", "x")]).2 =
        (false, (MemCache.delete "a" [("a", "x")]).2) ∧
      MemCache.get "a" (MemCache.delete "a" [("a", "x")]).2 = none) ∧
     (∃ d, DiskCache.delete toyHash "a" (mapDir toyHash [("a", "x")]) =
         some (true, d, [.remove (toyHash "a"), .syncDir]) ∧
       DiskCache.delete toyHash "a" d = some (false, d, []) ∧
       DiskCache.get toyHash "a" d = some (none, d, []))) :=
  ⟨by decide, by decide, by decide,
   claim_delete_true_exactly_once toyHash "a" [("a", "x")]
     (by decide) (by decide) (by decide)⟩

/-- **C5.** Last-write-wins: in both backends, after `add(k, v1)` then
`add(k, v2)`, `get(k)` returns `v2` and `list()` holds exactly one entry
for `k`, namely `(k, v2)`. -/
theorem claim_add_add_last_write_wins (hash : String → String)
    (k v1 v2 : String) (m : MemState) (hn : (keysOf m).Nodup)
    (hok : HashOk hash (k :: keysOf m)) :
    (MemCache.get k (MemCache.add k v2 (MemCache.add k v1 m)) = some v2 ∧
     (MemCache.list (MemCache.add k v2 (MemCache.add k v1 m))).filter
       (fun p => p.1 == k) = [(k, v2)]) ∧
    (∃ d1 tr1, DiskCache.add hash k v1 (mapDir hash m) = some ((), d1, tr1) ∧
     ∃ d2 tr2, DiskCache.add hash k v2 d1 = some ((), d2, tr2) ∧
       DiskCache.get hash k d2 = some (some v2, d2, []) ∧
       ∃ l, DiskCache.list d2 = some (l, d2, []) ∧
         l.filter (fun p => p.1 == k) = [(k, v2)]) := by
  have hkmem : k ∈ k :: keysOf m := by simp
  have hk64 : (hash k).length = 64 := hok.1 k hkmem
  have hlen : ∀ k' ∈ keysOf m, (hash k').length = 64 :=
    fun k' h' => hok.1 k' (List.mem_cons_of_mem _ h')
  have hdouble : setEntry k v2 (setEntry k v1 m) = setEntry k v2 m :=
    setEntry_setEntry k v1 v2 m
  have halook2 : alook (setEntry k v2 m) k = some v2 := by
    rw [alook_setEntry]; simp
  have hn2 : (keysOf (setEntry k v2 m)).Nodup := nodup_keysOf_setEntry k v2 hn
  have hsub2 : keysOf (setEntry k v2 m) ⊆ k :: keysOf m :=
    keysOf_setEntry_subset k v2 m
  have hinj0 : ∀ k' ∈ keysOf m, hash k' = hash k → k' = k :=
    fun k' h' he => hok.2 k' (List.mem_cons_of_mem _ h') k hkmem he
  have hinj1 : ∀ k' ∈ keysOf (setEntry k v1 m), hash k' = hash k → k' = k :=
    fun k' h' he => hok.2 k' (keysOf_setEntry_subset k v1 m h') k hkmem he
  have hlen1 : ∀ k' ∈ keysOf (setEntry k v1 m), (hash k').length = 64 :=
    fun k' h' => hok.1 k' (keysOf_setEntry_subset k v1 m h')
  have hinj2 : ∀ k' ∈ keysOf (setEntry k v2 m), hash k' = hash k → k' = k :=
    fun k' h' he => hok.2 k' (hsub2 h') k hkmem he
  have hlen2 : ∀ k' ∈ keysOf (setEntry k v2 m), (hash k').length = 64 :=
    fun k' h' => hok.1 k' (hsub2 h')
  refine ⟨⟨?_, ?_⟩, ?_⟩
  · simp [MemCache.get, MemCache.add, hdouble, halook2]
  · rw [MemCache.list, MemCache.add, MemCache.add, hdouble]
    exact filter_key_of_nodup (nodup_keysOf_of_sorted (sorted_mapFromList _))
      (by rw [alook_mapFromList_nodup _ hn2, halook2])
  · refine ⟨mapDir hash (setEntry k v1 m), addTrace hash k v1, ?_,
      mapDir hash (setEntry k v2 m), addTrace hash k v2, ?_, ?_, ?_⟩
    · rw [DiskCache.add_run, delEntry_tmp_mapDir hash k m hk64 hlen,
        mapDir_setEntry k v1 hinj0]
    · rw [DiskCache.add_run, delEntry_tmp_mapDir hash k _ hk64 hlen1,
        mapDir_setEntry k v2 hinj1, hdouble]
    · rw [DiskCache.get_run, alook_mapDir k hinj2, halook2]
      simp [deserializeEntry_serializeEntry]
    · refine ⟨mapFromList (setEntry k v2 m), ?_, ?_⟩
      · rw [DiskCache.list_run, readEntries_mapDir hlen2]
      · exact filter_key_of_nodup (nodup_keysOf_of_sorted (sorted_mapFromList _))
          (by rw [alook_mapFromList_nodup _ hn2, halook2])

/-- Witness for **C5** at `k = "a"`, `v1 = "x"`, `v2 = "y"`, empty prior
cache. -/
theorem claim_add_add_last_write_wins_witness :
    (keysOf ([] : MemState)).Nodup ∧ HashOk toyHash ("a" :: keysOf ([] : MemState)) ∧
    ((MemCache.get "a" (MemCache.add "a" "y" (MemCache.add "a" "x" [])) = some "y" ∧
      (MemCache.list (MemCache.add "a" "y" (MemCache.add "a" "x" []))).filter
        (fun p => p.1 == "a") = [("a", "y")]) ∧
     (∃ d1 tr1, DiskCache.add toyHash "a" "x" (mapDir toyHash []) =
        some ((), d1, tr1) ∧
      ∃ d2 tr2, DiskCache.add toyHash "a" "y" d1 = some ((), d2, tr2) ∧
        DiskCache.get toyHash "a" d2 = some (some "y", d2, []) ∧
        ∃ l, DiskCache.list d2 = some (l, d2, []) ∧
          l.filter (fun p => p.1 == "a") = [("a", "y")])) :=
  ⟨by decide, by decide,
   claim_add_add_last_write_wins toyHash "a" "x" "y" [] (by decide) (by decide)⟩

/-- **C6.** Modify semantics in both backends: on an absent key,
`modify(k, v)` returns `false` and leaves the entire state unchanged (in
particular it creates no entry); on a present key it returns `true`,
afterwards `get(k)` returns `v`, and every other entry is unchanged
(every other key in memory, every other file name on disk). -/
theorem claim_modify_updates_only_existing (hash : String → String)
    (k v : String) (m : MemState) (hok : HashOk hash (k :: keysOf m)) :
    (k ∉ keysOf m →
      MemCache.modify k v m = (false, m) ∧
      DiskCache.modify hash k v (mapDir hash m) =
        some (false, mapDir hash m, [])) ∧
    (k ∈ keysOf m →
      ((MemCache.modify k v m).1 = true ∧
       MemCache.get k (MemCache.modify k v m).2 = some v ∧
       (∀ q, q ≠ k → alook (MemCache.modify k v m).2 q = alook m q)) ∧
      (∃ d tr, DiskCache.modify hash k v (mapDir hash m) = some (true, d, tr) ∧
        DiskCache.get hash k d = some (some v, d, []) ∧
        ∀ n, n ≠ hash k → alook d n = alook (mapDir hash m) n)) := by
  have hkmem : k ∈ k :: keysOf m := by simp
  have hk64 : (hash k).length = 64 := hok.1 k hkmem
  have hlen : ∀ k' ∈ keysOf m, (hash k').length = 64 :=
    fun k' h' => hok.1 k' (List.mem_cons_of_mem _ h')
  have hinj : ∀ k' ∈ keysOf m, hash k' = hash k → k' = k :=
    fun k' h' he => hok.2 k' (List.mem_cons_of_mem _ h') k hkmem he
  constructor
  · intro habs
    have halook : alook m k = none := (alook_eq_none_iff m k).mpr habs
    have hdisk : alook (mapDir hash m) (hash k) = none := by
      rw [alook_mapDir k hinj, halook]; rfl
    refine ⟨by simp [MemCache.modify, halook], ?_⟩
    rw [DiskCache.modify_run, hdisk]
  · intro hpres
    obtain ⟨w, hw⟩ : ∃ w, alook m k = some w := by
      rcases h : alook m k with _ | w
      · exact absurd ((alook_eq_none_iff m k).mp h) (by simpa using hpres)
      · exact ⟨w, rfl⟩
    have hdisk : alook (mapDir hash m) (hash k) =
        some (serializeEntry ⟨k, w⟩) := by
      rw [alook_mapDir k hinj, hw]; rfl
    refine ⟨⟨?_, ?_, ?_⟩, ?_⟩
    · simp [MemCache.modify, hw]
    · simp [MemCache.modify, MemCache.get, hw, alook_setEntry]
    · intro q hq
      simp [MemCache.modify, hw, alook_setEntry, hq]
    · refine ⟨setEntry (hash k) (serializeEntry ⟨k, v⟩) (mapDir hash m),
        addTrace hash k v, ?_, ?_, ?_⟩
      · rw [DiskCache.modify_run, hdisk, delEntry_tmp_mapDir hash k m hk64 hlen]
      · rw [DiskCache.get_run, alook_setEntry]
        simp [deserializeEntry_serializeEntry]
      · intro n hn'
        rw [alook_setEntry, if_neg hn']

/-- Witness for **C6**, exercising the present branch at `k = "a"` and
the absent branch at `k = "b"`, both over the cache `[("a", "x")]`. -/
theorem claim_modify_updates_only_existing_witness :
    (HashOk toyHash ("a" :: keysOf [("a", "x")]) ∧
     "a" ∈ keysOf [("a", "x")] ∧
     (((MemCache.modify "a" "z" [("a", "x")]).1 = true ∧
       MemCache.get "a" (MemCache.modify "a" "z" [("a", "x")]).2 = some "z" ∧
       (∀ q, q ≠ "a" →
         alook (MemCache.modify "a" "z" [("a", "x")]).2 q =
           alook [("a", "x")] q)) ∧
      (∃ d tr, DiskCache.modify toyHash "a" "z" (mapDir toyHash [("a", "x")]) =
          some (true, d, tr) ∧
        DiskCache.get toyHash "a" d = some (some "z", d, []) ∧
        ∀ n, n ≠ toyHash "a" →
          alook d n = alook (mapDir toyHash [("a", "x")]) n))) ∧
    (HashOk toyHash ("b" :: keysOf [("a", "x")]) ∧
     "b" ∉ keysOf [("a", "x")] ∧
     (MemCache.modify "b" "w" [("a", "x")] = (false, [("a", "x")]) ∧
      DiskCache.modify toyHash "b" "w" (mapDir toyHash [("a", "x")]) =
        some (false, mapDir toyHash [("a", "x")], []))) :=
  ⟨⟨by decide, by decide,
    (claim_modify_updates_only_existing toyHash "a" "z" [("a", "x")]
      (by decide)).2 (by decide)⟩,
   ⟨by decide, by decide,
    (claim_modify_updates_only_existing toyHash "b" "w" [("a", "x")]
      (by decide)).1 (by decide)⟩⟩

/-- **C7.** The write protocol of `DiskCache::add(k, v)`: it performs, in
this exact order, (1) serialize the record, (2) write it fully to the
temporary file `hash(k) ++ ".new"` in the same directory — a
68-character name that can collide with no 64-character entry name —
(3) a durability barrier on the temporary file, (4) the atomic rename
onto the final name `hash(k)`, replacing any existing file of that name,
(5) a durability barrier on the containing directory.  Replaying the
recorded trace reproduces the final directory; through every prefix up
to and including the barrier before the rename the final name still
holds exactly its previous content, and afterwards the complete new
record: at no point is a half-written file visible under the final
name. -/
theorem claim_add_write_protocol (hash : String → String) (k v : String)
    (d : Dir) (h64 : (hash k).length = 64) :
    DiskCache.add hash k v d =
      some ((), setEntry (hash k) (serializeEntry ⟨k, v⟩)
        (delEntry (hash k ++ ".new") d), addTrace hash k v) ∧
    addTrace hash k v =
      [.create (hash k ++ ".new"),
       .write (hash k ++ ".new") (serializeEntry ⟨k, v⟩),
       .syncFile (hash k ++ ".new"),
       .rename (hash k ++ ".new") (hash k),
       FsEvent.syncDir] ∧
    (∀ k', (hash k').length = 64 → hash k ++ ".new" ≠ hash k') ∧
    applyEvents d (addTrace hash k v) =
      setEntry (hash k) (serializeEntry ⟨k, v⟩)
        (delEntry (hash k ++ ".new") d) ∧
    (∀ n, n ≤ 3 →
      alook (applyEvents d ((addTrace hash k v).take n)) (hash k) =
        alook d (hash k)) ∧
    (∀ n, alook (applyEvents d ((addTrace hash k v).take n)) (hash k) =
        alook d (hash k) ∨
      alook (applyEvents d ((addTrace hash k v).take n)) (hash k) =
        some (serializeEntry ⟨k, v⟩)) := by
  have htmplen : (hash k ++ ".new").length = 68 := tmp_name_length hash k h64
  have htmpne : ¬ (hash k = hash k ++ ".new") := by
    intro he
    rw [← he] at htmplen
    omega
  have happly : applyEvents d (addTrace hash k v) =
      setEntry (hash k) (serializeEntry ⟨k, v⟩)
        (delEntry (hash k ++ ".new") d) := by
    simp [applyEvents, addTrace, applyEvent, alook_setEntry,
      setEntry_setEntry, delEntry_setEntry]
  have hpre : ∀ n, n ≤ 3 →
      alook (applyEvents d ((addTrace hash k v).take n)) (hash k) =
        alook d (hash k) := by
    intro n hn
    interval_cases n
    · rfl
    · simp [applyEvents, addTrace, applyEvent, alook_setEntry, htmpne]
    · simp [applyEvents, addTrace, applyEvent, alook_setEntry, htmpne,
        setEntry_setEntry]
    · simp [applyEvents, addTrace, applyEvent, alook_setEntry, htmpne,
        setEntry_setEntry]
  refine ⟨DiskCache.add_run hash k v d, rfl, ?_, happly, hpre, ?_⟩
  · intro k' h' he
    rw [he, h'] at htmplen
    omega
  · intro n
    match n with
    | 0 => exact Or.inl (hpre 0 (by omega))
    | 1 => exact Or.inl (hpre 1 (by omega))
    | 2 => exact Or.inl (hpre 2 (by omega))
    | 3 => exact Or.inl (hpre 3 (by omega))
    | 4 =>
      refine Or.inr ?_
      simp [applyEvents, addTrace, applyEvent, alook_setEntry,
        setEntry_setEntry, delEntry_setEntry]
    | (n + 5) =>
      refine Or.inr ?_
      rw [List.take_of_length_le (by simp [addTrace]), happly,
        alook_setEntry]
      simp

/-- Witness for **C7** at `k = "a"`, `v = "x"`, empty directory. -/
theorem claim_add_write_protocol_witness :
    (toyHash "a").length = 64 ∧
    (DiskCache.add toyHash "a" "x" [] =
      some ((), setEntry (toyHash "a") (serializeEntry ⟨"a", "x"⟩)
        (delEntry (toyHash "a" ++ ".new") []), addTrace toyHash "a" "x") ∧
     addTrace toyHash "a" "x" =
      [.create (toyHash "a" ++ ".new"),
       .write (toyHash "a" ++ ".new") (serializeEntry ⟨"a", "x"⟩),
       .syncFile (toyHash "a" ++ ".new"),
       .rename (toyHash "a" ++ ".new") (toyHash "a"),
       FsEvent.syncDir] ∧
     (∀ k', (toyHash k').length = 64 → toyHash "a" ++ ".new" ≠ toyHash k') ∧
     applyEvents [] (addTrace toyHash "a" "x") =
      setEntry (toyHash "a") (serializeEntry ⟨"a", "x"⟩)
        (delEntry (toyHash "a" ++ ".new") []) ∧
     (∀ n, n ≤ 3 →
       alook (applyEvents [] ((addTrace toyHash "a" "x").take n)) (toyHash "a") =
         alook [] (toyHash "a")) ∧
     (∀ n, alook (applyEvents [] ((addTrace toyHash "a" "x").take n)) (toyHash "a") =
         alook [] (toyHash "a") ∨
       alook (applyEvents [] ((addTrace toyHash "a" "x").take n)) (toyHash "a") =
         some (serializeEntry ⟨"a", "x"⟩))) :=
  ⟨by decide, claim_add_write_protocol toyHash "a" "x" [] (by decide)⟩

/-- **C8.** Durable round trip: write a set of pairs (distinct keys) via
`add` on one `DiskCache` instance over an initially empty directory.
`DiskCache::new` stores nothing but the directory path, so a fresh
instance over the same directory observes the same directory contents;
`get` on it returns each written value and `list` yields exactly the
written key-to-value mapping. -/
theorem claim_disk_round_trip (hash : String → String)
    (ps : List (String × String)) (hn : (keysOf ps).Nodup)
    (hok : HashOk hash (keysOf ps)) :
    ∃ rs d tr, DiskCache.run hash (ps.map (fun p => Op.addOp p.1 p.2)) [] =
      some (rs, d, tr) ∧
      (∀ p ∈ ps, DiskCache.get hash p.1 d = some (some p.2, d, [])) ∧
      ∃ l, DiskCache.list d = some (l, d, []) ∧
        ∀ q, alook l q = alook ps q := by
  have hok' : HashOk hash (opsKeys (ps.map (fun p => Op.addOp p.1 p.2)) ++
      keysOf ([] : MemState)) := by
    rw [opsKeys_adds]
    simpa [keysOf] using hok
  obtain ⟨tr, hrun⟩ := run_sim hash (ps.map (fun p => Op.addOp p.1 p.2)) []
    (by simp [keysOf]) hok'
  have hfinal : (MemCache.run (ps.map (fun p => Op.addOp p.1 p.2)) []).2 = ps := by
    rw [MemCache.run_adds]
    simpa using foldl_setEntry_of_disjoint ps [] hn (by simp [keysOf])
  rw [hfinal] at hrun
  refine ⟨(MemCache.run (ps.map (fun p => Op.addOp p.1 p.2)) []).1,
    mapDir hash ps, tr, by simpa [mapDir] using hrun, ?_, ?_⟩
  · intro p hp
    have hinj : ∀ k' ∈ keysOf ps, hash k' = hash p.1 → k' = p.1 :=
      fun k' h' he =>
        hok.2 k' h' p.1 (List.mem_map_of_mem Prod.fst hp) he
    have halook : alook ps p.1 = some p.2 := alook_of_mem_nodup hn hp
    rw [DiskCache.get_run, alook_mapDir p.1 hinj, halook]
    simp [deserializeEntry_serializeEntry]
  · refine ⟨mapFromList ps, ?_, ?_⟩
    · rw [DiskCache.list_run, readEntries_mapDir hok.1]
    · exact fun q => alook_mapFromList_nodup q hn

/-- Witness for **C8** on the two pairs `("a", "x")`, `("b", "y")`. -/
theorem claim_disk_round_trip_witness :
    (keysOf [("a", "x"), ("b", "y")]).Nodup ∧
    HashOk toyHash (keysOf [("a", "x"), ("b", "y")]) ∧
    (∃ rs d tr, DiskCache.run toyHash
        ([("a", "x"), ("b", "y")].map (fun p => Op.addOp p.1 p.2)) [] =
      some (rs, d, tr) ∧
      (∀ p ∈ [("a", "x"), ("b", "y")],
        DiskCache.get toyHash p.1 d = some (some p.2, d, [])) ∧
      ∃ l, DiskCache.list d = some (l, d, []) ∧
        ∀ q, alook l q = alook [("a", "x"), ("b", "y")] q) :=
  ⟨by decide, by decide,
   claim_disk_round_trip toyHash [("a", "x"), ("b", "y")]
     (by decide) (by decide)⟩

/-- **C9.** Directory invariant of the durable backend, preserved by
every completed operation (hence holding after every run from the empty
directory): file names are unique, and every file is a well-formed entry
file — a 64-character name equal to the hash of the key stored inside,
with content deserializing to a `{key, value}` record.  Moreover files
of any other name length — including the 68-character `<digest>.new`
temporaries — are never treated as valid entries: the `list` scan skips
them wherever they sit in the directory, and `get` (which resolves only
the 64-character name `hash(key)`) is unaffected by them. -/
theorem claim_directory_invariant (hash : String → String) (ops : List Op)
    (hok : HashOk hash (opsKeys ops)) :
    (∃ rs d tr, DiskCache.run hash ops [] = some (rs, d, tr) ∧
      DirWF hash d) ∧
    (∀ d1 d2 n0 c0, n0.length ≠ 64 →
      readEntries (d1 ++ (n0, c0) :: d2) = readEntries (d1 ++ d2)) ∧
    (∀ k d1 d2 n0 c0, (hash k).length = 64 → n0.length ≠ 64 →
      (DiskCache.get hash k (d1 ++ (n0, c0) :: d2)).map (fun r => r.1) =
        (DiskCache.get hash k (d1 ++ d2)).map (fun r => r.1)) := by
  refine ⟨?_, ?_, ?_⟩
  · obtain ⟨tr, hrun⟩ := run_sim hash ops [] (by simp [keysOf])
      (by simpa [keysOf] using hok)
    set m' := (MemCache.run ops []).2 with hm'
    have hkeys : keysOf m' ⊆ opsKeys ops := by
      intro a ha
      simpa [keysOf] using MemCache.run_keys ops [] ha
    have hnod : (keysOf m').Nodup := MemCache.run_nodup ops [] (by simp [keysOf])
    refine ⟨(MemCache.run ops []).1, mapDir hash m', tr,
      by simpa [mapDir] using hrun, ?_, ?_⟩
    · rw [keysOf_mapDir]
      have : m'.map (fun p => hash p.1) = (keysOf m').map hash := by
        rw [keysOf, List.map_map]
        rfl
      rw [this]
      refine List.Nodup.map_on ?_ hnod
      intro x hx y hy he
      exact hok.2 x (hkeys hx) y (hkeys hy) he
    · intro p hp
      rcases List.mem_map.mp hp with ⟨⟨k, v⟩, hkv, hpe⟩
      refine ⟨k, v, ?_, ?_, ?_⟩
      · rw [← hpe]
        rfl
      · rw [← hpe]
        exact hok.1 k (hkeys (List.mem_map_of_mem Prod.fst hkv))
      · rw [← hpe]
        exact deserializeEntry_serializeEntry ⟨k, v⟩
  · intro d1 d2 n0 c0 h0
    induction d1 with
    | nil => simp [readEntries, h0]
    | cons p d1 ih =>
      obtain ⟨n1, c1⟩ := p
      by_cases h1 : n1.length = 64
      · simp [readEntries, h1, ih, List.append_eq]
      · simp [readEntries, h1, ih, List.append_eq]
  · intro k d1 d2 n0 c0 hk h0
    have hne : ¬ (hash k = n0) := fun he => h0 (he ▸ hk)
    have halook : alook (d1 ++ (n0, c0) :: d2) (hash k) =
        alook (d1 ++ d2) (hash k) := by
      rw [alook_append, alook_append]
      rcases h1 : alook d1 (hash k) with _ | w
      · rw [ofirst_none, ofirst_none]
        simp [alook, hne]
      · rw [ofirst_some, ofirst_some]
    rw [DiskCache.get_run, DiskCache.get_run, halook]
    rcases h2 : alook (d1 ++ d2) (hash k) with _ | c
    · rfl
    · rcases h3 : deserializeEntry c with _ | e <;> simp [h3]

/-- Witness for **C9** on a run that adds two entries and deletes one,
with a junk `.new` file of length 68 for the second and third parts. -/
theorem claim_directory_invariant_witness :
    HashOk toyHash (opsKeys [Op.addOp "a" "x", Op.addOp "b" "y", Op.delOp "b"]) ∧
    ((∃ rs d tr, DiskCache.run toyHash
        [Op.addOp "a" "x", Op.addOp "b" "y", Op.delOp "b"] [] =
        some (rs, d, tr) ∧ DirWF toyHash d) ∧
     (∀ d1 d2 n0 c0, n0.length ≠ 64 →
       readEntries (d1 ++ (n0, c0) :: d2) = readEntries (d1 ++ d2)) ∧
     (∀ k d1 d2 n0 c0, (toyHash k).length = 64 → n0.length ≠ 64 →
       (DiskCache.get toyHash k (d1 ++ (n0, c0) :: d2)).map (fun r => r.1) =
         (DiskCache.get toyHash k (d1 ++ d2)).map (fun r => r.1))) :=
  ⟨by decide,
   claim_directory_invariant toyHash
     [Op.addOp "a" "x", Op.addOp "b" "y", Op.delOp "b"] (by decide)⟩

/-- **C10.** (Implicit claim.)  In both backends `list()` returns a JSON
object whose keys are in strictly ascending lexicographic order
(`serde_json`'s default `Map` is a `BTreeMap`), and the output depends
only on the key-to-value mapping, not on `HashMap` iteration order or
`read_dir` enumeration order: any permutation of the enumerated entries
produces the identical object, so for a given cache content the output
is deterministic and identical across backends. -/
theorem claim_list_sorted_deterministic :
    (∀ m : MemState, EntriesSorted (MemCache.list m)) ∧
    (∀ (d : Dir) l d' tr, DiskCache.list d = some (l, d', tr) →
      EntriesSorted l) ∧
    (∀ l1 l2 : List (String × String), l1.Perm l2 → (keysOf l1).Nodup →
      mapFromList l1 = mapFromList l2) := by
  refine ⟨fun m => sorted_mapFromList m, ?_,
    fun l1 l2 h hn => mapFromList_perm h hn⟩
  intro d l d' tr h
  rw [DiskCache.list_run] at h
  rcases h2 : readEntries d with _ | es
  · rw [h2] at h
    exact absurd h (by simp)
  · rw [h2] at h
    have : mapFromList es = l := by
      have := Option.some.injEq .. ▸ h
      exact congrArg Prod.fst this
    rw [← this]
    exact sorted_mapFromList es

/-- Witness for **C10**: a concrete disk `list` call, and two
enumeration orders of the same two entries giving the same object. -/
theorem claim_list_sorted_deterministic_witness :
    (DiskCache.list (mapDir toyHash [("a", "x")]) =
       some (mapFromList [("a", "x")], mapDir toyHash [("a", "x")], []) ∧
     EntriesSorted (mapFromList [("a", "x")])) ∧
    ([("b", "y"), ("a", "x")].Perm [("a", "x"), ("b", "y")] ∧
     (keysOf [("b", "y"), ("a", "x")]).Nodup ∧
     mapFromList [("b", "y"), ("a", "x")] = mapFromList [("a", "x"), ("b", "y")]) :=
  ⟨⟨by decide,
    claim_list_sorted_deterministic.2.1 (mapDir toyHash [("a", "x")])
      (mapFromList [("a", "x")]) (mapDir toyHash [("a", "x")]) [] (by decide)⟩,
   ⟨by decide, by decide,
    claim_list_sorted_deterministic.2.2 [("b", "y"), ("a", "x")]
      [("a", "x"), ("b", "y")] (by decide) (by decide)⟩⟩

end RestServer
